import Mathlib

/-!
Verification of the circle-plugin core: header parsing, tree building,
radial layout, navigation and the text patcher, shallowly embedded from
the TypeScript sources (src/src/utils/parseHeaders.ts, the two unnamed
CircleView revisions, src/src/Views/CircleView.ts).

Modelling conventions:
* JavaScript floating-point numbers are modelled as exact rationals.
* Mutation of the shared children arrays in buildHeaderHierarchy is
  modelled by delayed attachment: a child is appended to its parent
  frame when it is popped off the ancestor stack (or at the final
  collapse), which yields the same final tree as the eager aliased
  pushes of the JavaScript code.
* A JavaScript TypeError (reading a property of undefined after the
  root frame has been popped) or a thrown exception is modelled as
  Option.none.
-/

namespace CirclePlugin

/-- The Node interface of parseHeaders.ts: level, title, children. -/
structure Node where
  level : Nat
  title : String
  children : List Node
deriving Repr

/-- Append a finished child node at the end of a node's child list. -/
def Node.push (n : Node) (c : Node) : Node :=
  { n with children := n.children ++ [c] }

/-- The whitespace class of the JavaScript regular-expression escape
bs-s (space, tab, line terminators, and the Unicode space separators). -/
def isJsWhitespace (c : Char) : Bool :=
  c = ' ' || c = '\t' || c = '\n' || c = '\x0b' || c = '\x0c' || c = '\r' ||
  c = '\u00a0' || c = '\u1680' ||
  ('\u2000' ≤ c && c ≤ '\u200a') ||
  c = '\u2028' || c = '\u2029' || c = '\u202f' || c = '\u205f' ||
  c = '\u3000' || c = '\ufeff'

/-- JavaScript line terminators, the characters the regexp dot does not match. -/
def isLineTerm (c : Char) : Bool :=
  c = '\n' || c = '\r' || c = '\u2028' || c = '\u2029'

/-- JavaScript String.prototype.trim on both ends, over the code points. -/
def jsTrim (s : String) : String :=
  ⟨((s.data.dropWhile isJsWhitespace).reverse.dropWhile isJsWhitespace).reverse⟩

/-- The worker of String.prototype.split over the newline separator. -/
def splitNewlinesAux : List Char → List Char → List String
  | [], acc => [String.mk acc.reverse]
  | c :: cs, acc =>
    if c = '\n' then String.mk acc.reverse :: splitNewlinesAux cs []
    else splitNewlinesAux cs (c :: acc)

/-- JavaScript content.split(newline): the list of lines, empty pieces
included (an empty document gives one empty line, a trailing newline a
trailing empty line). -/
def splitNewlines (s : String) : List String :=
  splitNewlinesAux s.data []

/-- JavaScript Array.prototype.join(newline). -/
def joinLines : List String → String
  | [] => ""
  | [l] => l
  | l :: ls => l ++ "\n" ++ joinLines ls

/-- JavaScript String.prototype.startsWith, over the code points. -/
def jsStartsWith (s m : String) : Bool :=
  m.data.isPrefixOf s.data

/-- JavaScript String.prototype.substring(n) (drop the first n units;
only applied after an ASCII marker match, where code points and UTF-16
units agree). -/
def jsDrop (n : Nat) (s : String) : String :=
  ⟨s.data.drop n⟩

/--
One line of parseHeaders: the match of the anchored JavaScript regexp
with 1 to 6 hash characters, then greedy bs-s-plus, then a non-empty
dot-plus capture reaching the end of the line.  Greedy matching with
backtracking means: the whitespace run keeps everything up to the first
non-whitespace character, except that when the whole remainder is
whitespace it gives its last character back to the capture; the match
fails when the capture would contain a line terminator.  The captured
title is NOT trimmed.
-/
def matchHeader (line : String) : Option Node :=
  let cs := line.data
  let k := (cs.takeWhile (· = '#')).length
  let rest := cs.drop k
  if 1 ≤ k ∧ k ≤ 6 then
    let wl := (rest.takeWhile isJsWhitespace).length
    if wl = 0 then none
    else
      let p := if wl = rest.length then rest.length - 1 else wl
      if p = 0 then none
      else
        let t := rest.drop p
        if t.all (fun c => !(isLineTerm c)) then some ⟨k, ⟨t⟩, []⟩ else none
  else none

/-- The flat ordered list of header nodes of a document: split on
newline, keep the lines matching the header regexp. -/
def headerList (markdown : String) : List Node :=
  (splitNewlines markdown).filterMap matchHeader

/--
The while loop of buildHeaderHierarchy: pop ancestor-stack frames while
the top frame's level is at least the incoming level.  `t` is the top
frame, the list is the rest of the stack.  Popping attaches the popped
frame to the frame below it (delayed-attachment model of the eager
JavaScript array aliasing).  Popping the last frame makes the next
access of the stack top read undefined, a TypeError: none.
-/
def popStack (lvl : Nat) (t : Node) : List Node → Option (List Node)
  | [] => if lvl ≤ t.level then none else some [t]
  | u :: rest =>
    if lvl ≤ t.level then popStack lvl (u.push t) rest
    else some (t :: u :: rest)

/-- popStack on a whole stack; an empty stack is the TypeError case. -/
def popFull (lvl : Nat) : List Node → Option (List Node)
  | [] => none
  | t :: rest => popStack lvl t rest

/-- The for loop of buildHeaderHierarchy: for each header, pop the
stack down, then push the header as the new top frame. -/
def runHeaders (stack : List Node) : List Node → Option (List Node)
  | [] => some stack
  | h :: hs =>
    match popFull h.level stack with
    | none => none
    | some s => runHeaders (h :: s) hs

/-- Final realisation of the delayed attachments: fold the remaining
open frames down onto the bottom (root) frame and return its children,
the `result` array of the JavaScript code. -/
def collapse (t : Node) : List Node → List Node
  | [] => t.children
  | u :: rest => collapse (u.push t) rest

/-- collapse of a whole stack. -/
def collapseFull : List Node → List Node
  | [] => []
  | t :: rest => collapse t rest

/-- buildHeaderHierarchy of parseHeaders.ts: early return on an empty
header list, otherwise run the stack fold starting from the synthetic
level-0 root frame. -/
def buildHeaderHierarchy (headers : List Node) : Option (List Node) :=
  if headers.isEmpty then some [] else
  (runHeaders [⟨0, "root", []⟩] headers).map collapseFull

/-- parseHeaders of parseHeaders.ts: extract the flat header list, then
fold it into the hierarchy. -/
def parseHeaders (markdown : String) : Option (List Node) :=
  buildHeaderHierarchy (headerList markdown)

lemma lengthTakeWhileLe {α : Type} (p : α → Bool) (l : List α) :
    (l.takeWhile p).length ≤ l.length :=
  (List.takeWhile_sublist p).length_le

lemma lengthDropWhileLe {α : Type} (p : α → Bool) (l : List α) :
    (l.dropWhile p).length ≤ l.length :=
  (List.dropWhile_sublist p).length_le

/--
The specification-side forest of a flat header list, written from the
claim: each header becomes a child of the nearest preceding header with
strictly smaller level (the synthetic root when none exists).
Equivalently, a header's descendants are exactly the following headers
of strictly greater level, recursively subdivided.
-/
def specForest : List Node → List Node
  | [] => []
  | h :: hs =>
    ⟨h.level, h.title, specForest (hs.takeWhile fun x => h.level < x.level)⟩ ::
    specForest (hs.dropWhile fun x => h.level < x.level)
termination_by l => l.length
decreasing_by
  · exact Nat.lt_succ_of_le (lengthTakeWhileLe _ _)
  · exact Nat.lt_succ_of_le (lengthDropWhileLe _ _)

/--
The stack of still-open frames that processing the subtree of `n` leaves
behind, top of stack first: the rightmost spine of `n`, where each spine
node's frame holds all its children except the last (still open) one.
-/
def openFrames (n : Node) : List Node :=
  match hL : n.children.getLast? with
  | none => [n]
  | some c => openFrames c ++ [⟨n.level, n.title, n.children.dropLast⟩]
termination_by sizeOf n
decreasing_by
  have hc : sizeOf c < sizeOf n.children := by
    have hmem : c ∈ n.children := by
      have := List.dropLast_append_getLast? c hL
      exact this ▸ List.mem_append_right _ (List.mem_singleton_self c)
    exact List.sizeOf_lt_of_mem hmem
  cases n with
  | mk lvl ttl cs => simp only [Node.mk.sizeOf_spec] at *; omega

/-- The whole stack (top first) left behind by processing a header list
whose spec-side forest is `F`, above a frame `t` and a lower stack. -/
def stackFor (F : List Node) (t : Node) (stack : List Node) : List Node :=
  match F.getLast? with
  | none => t :: stack
  | some l => openFrames l ++ (⟨t.level, t.title, t.children ++ F.dropLast⟩ :: stack)

lemma node_eta (t : Node) : (⟨t.level, t.title, t.children⟩ : Node) = t := by
  cases t
  rfl

lemma popStack_lt (lvl : Nat) (t : Node) (s : List Node) (h : ¬ lvl ≤ t.level) :
    popStack lvl t s = some (t :: s) := by
  cases s <;> simp [popStack, h]

lemma runHeaders_append (stack : List Node) (as bs : List Node) :
    runHeaders stack (as ++ bs) = (runHeaders stack as).bind (fun s => runHeaders s bs) := by
  induction as generalizing stack with
  | nil => simp [runHeaders]
  | cons a as ih =>
    simp only [List.cons_append, runHeaders]
    cases popFull a.level stack with
    | none => simp
    | some s => simp [ih]

lemma openFrames_eq_nil (n : Node) (h : n.children.getLast? = none) :
    openFrames n = [n] := by
  rw [openFrames]
  split
  · rfl
  · rename_i c hc
    rw [h] at hc
    exact absurd hc (by simp)

lemma openFrames_eq_snoc (n : Node) (c : Node) (h : n.children.getLast? = some c) :
    openFrames n = openFrames c ++ [⟨n.level, n.title, n.children.dropLast⟩] := by
  rw [openFrames]
  split
  · rename_i hc
    rw [h] at hc
    exact absurd hc (by simp)
  · rename_i c' hc
    rw [h] at hc
    cases hc
    rfl

/-- Reattaching the open frames of `n` onto the frame below them by the
pop loop reconstitutes `n` as a finished child of that frame. -/
lemma popFold (lvl : Nat) :
    ∀ (N : Nat) (n : Node), sizeOf n ≤ N →
    (∀ f ∈ openFrames n, lvl ≤ f.level) → ∀ (fr : Node) (rest : List Node),
    popFull lvl (openFrames n ++ fr :: rest) = popFull lvl (fr.push n :: rest) := by
  intro N
  induction N with
  | zero =>
    intro n hn
    exfalso
    cases n with
    | mk lvl' ttl cs => simp only [Node.mk.sizeOf_spec] at hn; omega
  | succ N ih =>
    intro n hn hf fr rest
    cases hL : n.children.getLast? with
    | none =>
      rw [openFrames_eq_nil n hL]
      have hlev : lvl ≤ n.level := hf n (by rw [openFrames_eq_nil n hL]; simp)
      simp only [List.cons_append, List.nil_append, popFull, popStack, hlev, if_true]
    | some c =>
      have hofr := openFrames_eq_snoc n c hL
      have hrec : c ∈ n.children := by
        have := List.dropLast_append_getLast? c hL
        exact this ▸ List.mem_append_right _ (List.mem_singleton_self c)
      have hsz : sizeOf c ≤ N := by
        have h1 : sizeOf c < sizeOf n.children := List.sizeOf_lt_of_mem hrec
        cases n with
        | mk lvl' ttl cs => simp only [Node.mk.sizeOf_spec] at hn; simp at h1 ⊢; omega
      have hfc : ∀ f ∈ openFrames c, lvl ≤ f.level := by
        intro f hmem
        exact hf f (by rw [hofr]; exact List.mem_append_left _ hmem)
      have hfn : lvl ≤ n.level := by
        have := hf ⟨n.level, n.title, n.children.dropLast⟩
          (by rw [hofr]; exact List.mem_append_right _ (List.mem_singleton_self _))
        simpa using this
      rw [hofr, List.append_assoc, List.singleton_append,
        ih c hsz hfc ⟨n.level, n.title, n.children.dropLast⟩ (fr :: rest)]
      have hpush : (Node.mk n.level n.title n.children.dropLast).push c = n := by
        have := List.dropLast_append_getLast? c hL
        cases n with
        | mk lvl' ttl cs => simp [Node.push] at this ⊢; exact this
      rw [hpush]
      simp only [popFull, popStack, hfn, if_true]

/-- The final collapse folds the open frames of `n` onto the frame
below them just like the pop loop does. -/
lemma collapseFold :
    ∀ (N : Nat) (n : Node), sizeOf n ≤ N → ∀ (fr : Node) (rest : List Node),
    collapseFull (openFrames n ++ fr :: rest) = collapseFull (fr.push n :: rest) := by
  intro N
  induction N with
  | zero =>
    intro n hn
    exfalso
    cases n with
    | mk lvl' ttl cs => simp only [Node.mk.sizeOf_spec] at hn; omega
  | succ N ih =>
    intro n hn fr rest
    cases hL : n.children.getLast? with
    | none =>
      rw [openFrames_eq_nil n hL]
      simp only [List.cons_append, List.nil_append, collapseFull, collapse]
    | some c =>
      have hofr := openFrames_eq_snoc n c hL
      have hrec : c ∈ n.children := by
        have := List.dropLast_append_getLast? c hL
        exact this ▸ List.mem_append_right _ (List.mem_singleton_self c)
      have hsz : sizeOf c ≤ N := by
        have h1 : sizeOf c < sizeOf n.children := List.sizeOf_lt_of_mem hrec
        cases n with
        | mk lvl' ttl cs => simp only [Node.mk.sizeOf_spec] at hn; simp at h1 ⊢; omega
      rw [hofr, List.append_assoc, List.singleton_append,
        ih c hsz ⟨n.level, n.title, n.children.dropLast⟩ (fr :: rest)]
      have hpush : (Node.mk n.level n.title n.children.dropLast).push c = n := by
        have := List.dropLast_append_getLast? c hL
        cases n with
        | mk lvl' ttl cs => simp [Node.push] at this ⊢; exact this
      rw [hpush]
      simp only [collapseFull, collapse]

/-- Collapsing exactly the open frames of `n` yields the children of `n`. -/
lemma collapseRoot :
    ∀ (N : Nat) (n : Node), sizeOf n ≤ N →
    collapseFull (openFrames n) = n.children := by
  intro N
  induction N with
  | zero =>
    intro n hn
    exfalso
    cases n with
    | mk lvl' ttl cs => simp only [Node.mk.sizeOf_spec] at hn; omega
  | succ N ih =>
    intro n hn
    cases hL : n.children.getLast? with
    | none =>
      rw [openFrames_eq_nil n hL]
      simp only [collapseFull, collapse]
    | some c =>
      have hofr := openFrames_eq_snoc n c hL
      have hrec : c ∈ n.children := by
        have := List.dropLast_append_getLast? c hL
        exact this ▸ List.mem_append_right _ (List.mem_singleton_self c)
      have hsz : sizeOf c ≤ N := by
        have h1 : sizeOf c < sizeOf n.children := List.sizeOf_lt_of_mem hrec
        cases n with
        | mk lvl' ttl cs => simp only [Node.mk.sizeOf_spec] at hn; simp at h1 ⊢; omega
      rw [hofr, collapseFold N c hsz ⟨n.level, n.title, n.children.dropLast⟩ []]
      have hpush : (Node.mk n.level n.title n.children.dropLast).push c = n := by
        have := List.dropLast_append_getLast? c hL
        cases n with
        | mk lvl' ttl cs => simp [Node.push] at this ⊢; exact this
      rw [hpush]
      simp only [collapseFull, collapse]

lemma dropWhileHeadNot {α : Type} (p : α → Bool) :
    ∀ (l : List α) (x : α) (xs : List α), l.dropWhile p = x :: xs → p x = false := by
  intro l
  induction l with
  | nil => intro x xs h; simp [List.dropWhile] at h
  | cons a t ih =>
    intro x xs h
    rw [List.dropWhile_cons] at h
    by_cases hpa : p a = true
    · rw [if_pos hpa] at h; exact ih x xs h
    · rw [if_neg hpa] at h
      cases h
      simpa using hpa

/-- Every node of a tree, and hence every open frame it leaves behind,
has level at least `lvl`. -/
inductive LevelsAbove (lvl : Nat) : Node → Prop where
  | intro : ∀ (n : Node), lvl ≤ n.level → (∀ c ∈ n.children, LevelsAbove lvl c) →
      LevelsAbove lvl n

lemma levelsAbove_level {lvl : Nat} {n : Node} (h : LevelsAbove lvl n) : lvl ≤ n.level := by
  cases h; assumption

lemma levelsAbove_children {lvl : Nat} {n : Node} (h : LevelsAbove lvl n) :
    ∀ c ∈ n.children, LevelsAbove lvl c := by
  cases h; assumption

lemma openFrames_levels (lvl : Nat) :
    ∀ (N : Nat) (n : Node), sizeOf n ≤ N → LevelsAbove lvl n →
    ∀ f ∈ openFrames n, lvl ≤ f.level := by
  intro N
  induction N with
  | zero =>
    intro n hn
    exfalso
    cases n with
    | mk lvl' ttl cs => simp only [Node.mk.sizeOf_spec] at hn; omega
  | succ N ih =>
    intro n hn hla f hf
    cases hL : n.children.getLast? with
    | none =>
      rw [openFrames_eq_nil n hL] at hf
      simp only [List.mem_singleton] at hf
      subst hf
      exact levelsAbove_level hla
    | some c =>
      rw [openFrames_eq_snoc n c hL] at hf
      have hrec : c ∈ n.children := by
        have := List.dropLast_append_getLast? c hL
        exact this ▸ List.mem_append_right _ (List.mem_singleton_self c)
      rcases List.mem_append.mp hf with hf1 | hf2
      · have hsz : sizeOf c ≤ N := by
          have h1 : sizeOf c < sizeOf n.children := List.sizeOf_lt_of_mem hrec
          cases n with
          | mk lvl' ttl cs => simp only [Node.mk.sizeOf_spec] at hn; simp at h1 ⊢; omega
        exact ih c hsz (levelsAbove_children hla c hrec) f hf1
      · simp only [List.mem_singleton] at hf2
        subst hf2
        simpa using levelsAbove_level hla

lemma specForest_levelsAbove (lvl : Nat) :
    ∀ (N : Nat) (hs : List Node), hs.length ≤ N → (∀ x ∈ hs, lvl ≤ x.level) →
    ∀ tn ∈ specForest hs, LevelsAbove lvl tn := by
  intro N
  induction N with
  | zero =>
    intro hs hlen _ tn htn
    have : hs = [] := List.length_eq_zero.mp (Nat.le_zero.mp hlen)
    subst this
    simp [specForest] at htn
  | succ N ih =>
    intro hs hlen hlv tn htn
    cases hs with
    | nil => simp [specForest] at htn
    | cons h rest =>
      rw [specForest] at htn
      rcases List.mem_cons.mp htn with h1 | h2
      · subst h1
        refine LevelsAbove.intro _ (hlv h (List.mem_cons_self h rest)) ?_
        intro c hc
        simp only at hc
        refine ih (rest.takeWhile fun x => h.level < x.level)
          (le_trans (lengthTakeWhileLe _ _) (by simpa using hlen)) ?_ c hc
        intro x hx
        exact hlv x (List.mem_cons_of_mem h
          ((List.takeWhile_sublist _).subset hx))
      · refine ih (rest.dropWhile fun x => h.level < x.level)
          (le_trans (lengthDropWhileLe _ _) (by simpa using hlen)) ?_ tn h2
        intro x hx
        exact hlv x (List.mem_cons_of_mem h
          ((List.dropWhile_sublist _).subset hx))

lemma stackFor_open (F : List Node) (t : Node) (s : List Node) (ht : t.children = []) :
    stackFor F t s = openFrames ⟨t.level, t.title, F⟩ ++ s := by
  cases hF : F.getLast? with
  | none =>
    have hFnil : F = [] := List.getLast?_eq_none_iff.mp hF
    subst hFnil
    have hOF : openFrames ⟨t.level, t.title, ([] : List Node)⟩ =
        [⟨t.level, t.title, []⟩] := openFrames_eq_nil _ (by simp)
    rw [hOF]
    cases t with
    | mk lvl ttl cs =>
      simp only at ht
      subst ht
      rfl
  | some l =>
    have hOF : openFrames ⟨t.level, t.title, F⟩ =
        openFrames l ++ [⟨t.level, t.title, F.dropLast⟩] :=
      openFrames_eq_snoc _ l (by simpa using hF)
    unfold stackFor
    rw [hF, hOF, List.append_assoc, List.singleton_append, ht, List.nil_append]

lemma stackFor_cons (F : List Node) (h' t : Node) (s : List Node) (hF : F ≠ []) :
    stackFor (h' :: F) t s = stackFor F (t.push h') s := by
  obtain ⟨l, hl⟩ : ∃ l, F.getLast? = some l := by
    cases hFl : F.getLast? with
    | none => exact absurd (List.getLast?_eq_none_iff.mp hFl) hF
    | some l => exact ⟨l, rfl⟩
  have hcons : (h' :: F).getLast? = F.getLast? := by
    cases F with
    | nil => exact absurd rfl hF
    | cons b F' => exact List.getLast?_cons_cons
  have hdrop : (h' :: F).dropLast = h' :: F.dropLast := by
    cases F with
    | nil => exact absurd rfl hF
    | cons b F' => rfl
  unfold stackFor
  rw [hcons, hl, hdrop]
  simp [Node.push, List.append_assoc]

/--
The central invariant of buildHeaderHierarchy: running a block of
headers whose levels all exceed the level of the top frame `t` leaves
exactly the open-frame stack of its spec-side forest above `t`.
-/
lemma runHeaders_stackFor :
    ∀ (N : Nat) (hs : List Node), hs.length ≤ N →
    ∀ (t : Node) (stack : List Node),
    (∀ x ∈ hs, t.level < x.level) → (∀ x ∈ hs, x.children = []) →
    runHeaders (t :: stack) hs = some (stackFor (specForest hs) t stack) := by
  intro N
  induction N with
  | zero =>
    intro hs hlen t stack _ _
    have : hs = [] := List.length_eq_zero.mp (Nat.le_zero.mp hlen)
    subst this
    simp [runHeaders, specForest, stackFor]
  | succ N ih =>
    intro hs hlen t stack hlv hch
    cases hs with
    | nil => simp [runHeaders, specForest, stackFor]
    | cons h rest =>
      have hth : t.level < h.level := hlv h (List.mem_cons_self h rest)
      have hchh : h.children = [] := hch h (List.mem_cons_self h rest)
      have hrl : rest.length ≤ N := by simpa using hlen
      have hsplit : rest.takeWhile (fun x => h.level < x.level) ++
          rest.dropWhile (fun x => h.level < x.level) = rest :=
        List.takeWhile_append_dropWhile _ _
      -- step 1: no pop happens for h
      have hstep : runHeaders (t :: stack) (h :: rest) = runHeaders (h :: t :: stack) rest := by
        simp only [runHeaders, popFull, popStack_lt h.level t stack (by omega)]
      have hra := runHeaders_append (h :: t :: stack)
        (rest.takeWhile fun x => h.level < x.level)
        (rest.dropWhile fun x => h.level < x.level)
      rw [hsplit] at hra
      rw [hstep, hra]
      -- step 2: inner block
      have hinner : runHeaders (h :: t :: stack) (rest.takeWhile fun x => h.level < x.level) =
          some (stackFor (specForest (rest.takeWhile fun x => h.level < x.level))
            h (t :: stack)) := by
        refine ih _ (le_trans (lengthTakeWhileLe _ _) hrl) h (t :: stack) ?_ ?_
        · intro x hx
          have := List.mem_takeWhile_imp hx
          simpa using this
        · intro x hx
          exact hch x (List.mem_cons_of_mem h ((List.takeWhile_sublist _).subset hx))
      rw [hinner]
      simp only [Option.some_bind]
      set Fi := specForest (rest.takeWhile fun x => h.level < x.level) with hFi
      have hsfopen : stackFor Fi h (t :: stack) =
          openFrames ⟨h.level, h.title, Fi⟩ ++ (t :: stack) :=
        stackFor_open Fi h (t :: stack) hchh
      -- the spec forest of the whole block
      have hspec : specForest (h :: rest) =
          ⟨h.level, h.title, Fi⟩ :: specForest (rest.dropWhile fun x => h.level < x.level) := by
        rw [specForest]
      cases houter : rest.dropWhile (fun x => h.level < x.level) with
      | nil =>
        -- no following block: the open frames stay
        rw [hsfopen]
        simp only [runHeaders]
        rw [hspec, houter]
        have hs0 : specForest ([] : List Node) = [] := by rw [specForest]
        have hone : stackFor [⟨h.level, h.title, Fi⟩] t stack =
            openFrames ⟨h.level, h.title, Fi⟩ ++ (t :: stack) := by
          unfold stackFor
          simp [node_eta]
        rw [hs0, hone]
      | cons o outer' =>
        -- a following header at level ≤ h.level closes the block
        have hole : o.level ≤ h.level := by
          have := dropWhileHeadNot _ rest o outer' houter
          simpa using this
        have hto : t.level < o.level := by
          have : o ∈ rest := (List.dropWhile_sublist _).subset (by rw [houter]; simp)
          exact hlv o (List.mem_cons_of_mem h this)
        -- all open frames of the inner block have level ≥ o.level
        have hframes : ∀ f ∈ openFrames ⟨h.level, h.title, Fi⟩, o.level ≤ f.level := by
          refine openFrames_levels o.level (sizeOf (⟨h.level, h.title, Fi⟩ : Node)) _
            le_rfl ?_
          refine LevelsAbove.intro _ (by simpa using hole) ?_
          intro c hc
          refine specForest_levelsAbove o.level
            (rest.takeWhile fun x => h.level < x.level).length _ le_rfl ?_ c (hFi ▸ hc)
          intro x hx
          have hx1 := List.mem_takeWhile_imp hx
          simp only [decide_eq_true_eq] at hx1
          omega
        -- pop the open frames down onto t
        have hpop : popFull o.level (openFrames ⟨h.level, h.title, Fi⟩ ++ t :: stack) =
            some (t.push ⟨h.level, h.title, Fi⟩ :: stack) := by
          rw [popFold o.level (sizeOf (⟨h.level, h.title, Fi⟩ : Node)) _ le_rfl hframes t stack]
          simp only [popFull]
          exact popStack_lt o.level _ stack (by simp [Node.push]; omega)
        rw [hsfopen]
        have houterlen : (o :: outer').length ≤ N := by
          rw [← houter]
          exact le_trans (lengthDropWhileLe _ _) hrl
        have houters : runHeaders (t.push ⟨h.level, h.title, Fi⟩ :: stack) (o :: outer') =
            some (stackFor (specForest (o :: outer')) (t.push ⟨h.level, h.title, Fi⟩) stack) := by
          refine ih (o :: outer') houterlen _ stack ?_ ?_
          · intro x hx
            have : x ∈ rest := (List.dropWhile_sublist _).subset (houter ▸ hx)
            have := hlv x (List.mem_cons_of_mem h this)
            simpa [Node.push] using this
          · intro x hx
            have : x ∈ rest := (List.dropWhile_sublist _).subset (houter ▸ hx)
            exact hch x (List.mem_cons_of_mem h this)
        have hlhs : runHeaders (openFrames ⟨h.level, h.title, Fi⟩ ++ t :: stack) (o :: outer') =
            runHeaders (t.push ⟨h.level, h.title, Fi⟩ :: stack) (o :: outer') := by
          simp only [runHeaders, hpop]
          have hpop2 : popFull o.level (t.push ⟨h.level, h.title, Fi⟩ :: stack) =
              some (t.push ⟨h.level, h.title, Fi⟩ :: stack) := by
            simp only [popFull]
            exact popStack_lt o.level _ stack (by simp [Node.push]; omega)
          rw [hpop2]
        rw [hlhs, houters, hspec, houter]
        have hFo : specForest (o :: outer') ≠ [] := by
          rw [specForest]
          simp
        rw [stackFor_cons (specForest (o :: outer')) ⟨h.level, h.title, Fi⟩ t stack hFo]

/-- buildHeaderHierarchy computes exactly the specification forest on
any list of childless headers with positive levels. -/
lemma build_eq_specForest (hs : List Node)
    (h1 : ∀ x ∈ hs, 1 ≤ x.level) (h2 : ∀ x ∈ hs, x.children = []) :
    buildHeaderHierarchy hs = some (specForest hs) := by
  cases hs with
  | nil =>
    simp only [buildHeaderHierarchy, List.isEmpty_nil, if_true]
    rw [specForest]
  | cons h rest =>
    have hrun : runHeaders ((⟨0, "root", []⟩ : Node) :: []) (h :: rest) =
        some (stackFor (specForest (h :: rest)) ⟨0, "root", []⟩ []) := by
      refine runHeaders_stackFor (h :: rest).length (h :: rest) le_rfl _ [] ?_ h2
      intro x hx
      have := h1 x hx
      simpa using this
    unfold buildHeaderHierarchy
    rw [if_neg (by simp)]
    rw [hrun]
    simp only [Option.map_some']
    congr 1
    have hopen : stackFor (specForest (h :: rest)) ⟨0, "root", []⟩ [] =
        openFrames ⟨0, "root", specForest (h :: rest)⟩ ++ [] :=
      stackFor_open _ _ _ rfl
    rw [hopen, List.append_nil]
    have := collapseRoot (sizeOf (⟨0, "root", specForest (h :: rest)⟩ : Node)) _ le_rfl
    simpa using this

/-- A node produced by the header regexp has level 1..6 and no children. -/
lemma matchHeader_shape {line : String} {n : Node} (h : matchHeader line = some n) :
    1 ≤ n.level ∧ n.level ≤ 6 ∧ n.children = [] := by
  simp only [matchHeader] at h
  split_ifs at h with h1 h2 h3 h4 h5 h6
  all_goals simp only [Option.some.injEq] at h
  all_goals (subst h; exact ⟨h1.1, h1.2, rfl⟩)

lemma headerList_shape (s : String) :
    ∀ n ∈ headerList s, (1 ≤ n.level ∧ n.level ≤ 6) ∧ n.children = [] := by
  intro n hn
  rw [headerList] at hn
  rcases List.mem_filterMap.mp hn with ⟨line, _, hline⟩
  have := matchHeader_shape hline
  exact ⟨⟨this.1, this.2.1⟩, this.2.2⟩

/--
Claim C1: for every finite list of (level, title) header pairs, the fold
into a tree obeys the stack rule — each header becomes a child of the
nearest preceding header with strictly smaller level, or of the
synthetic level-0 root when none exists (here: buildHeaderHierarchy
equals the specification forest specForest); in particular the input
[(1,A),(3,B),(2,C),(1,D)] yields root children [A, D], A children
[B, C] in order, and B, C, D childless.
-/
theorem c1_tree_fold_stack_rule :
    (∀ hs : List Node, (∀ x ∈ hs, 1 ≤ x.level) → (∀ x ∈ hs, x.children = []) →
      buildHeaderHierarchy hs = some (specForest hs)) ∧
    buildHeaderHierarchy [⟨1, "A", []⟩, ⟨3, "B", []⟩, ⟨2, "C", []⟩, ⟨1, "D", []⟩] =
      some [⟨1, "A", [⟨3, "B", []⟩, ⟨2, "C", []⟩]⟩, ⟨1, "D", []⟩] :=
  ⟨build_eq_specForest, rfl⟩

/-- Witness for C1 at a concrete input, hypotheses discharged. -/
theorem c1_tree_fold_stack_rule_witness :
    buildHeaderHierarchy [⟨1, "A", []⟩, ⟨2, "B", []⟩] =
      some (specForest [⟨1, "A", []⟩, ⟨2, "B", []⟩]) :=
  c1_tree_fold_stack_rule.1 [⟨1, "A", []⟩, ⟨2, "B", []⟩] (by simp) (by simp)

/--
Claim C10: for every input string, parsing terminates and returns a tree
without raising — every parsed header has level between 1 and 6, so the
synthetic root is never popped and the fold always finds a stack top
(parseHeaders is some on every input).
-/
theorem c10_parse_never_raises :
    ∀ s : String, (parseHeaders s).isSome = true ∧
      ∀ n ∈ headerList s, 1 ≤ n.level ∧ n.level ≤ 6 := by
  intro s
  constructor
  · rw [parseHeaders, build_eq_specForest (headerList s)
      (fun n hn => ((headerList_shape s n hn).1).1)
      (fun n hn => (headerList_shape s n hn).2)]
    rfl
  · intro n hn
    exact (headerList_shape s n hn).1

/-- Witness for C10 at a concrete document. -/
theorem c10_parse_never_raises_witness :
    (parseHeaders "# A\n### B\n## C\nplain text").isSome = true :=
  (c10_parse_never_raises "# A\n### B\n## C\nplain text").1

/-- The header marker of the text patcher: the JavaScript
expression hash-repeat(level) + one space. -/
def headerMark (level : Nat) : String :=
  String.mk (List.replicate level '#') ++ " "

/-- The anchor-line test shared by updateMarkdownFile and
insertNewHeader: the line starts with the marker, and the remainder
after the marker trims to the node's title. -/
def isAnchorLine (node : Node) (line : String) : Bool :=
  jsStartsWith line (headerMark node.level) &&
  jsTrim (jsDrop (headerMark node.level).data.length line) == node.title

/-- The index-searching for loop with early break: index of the first
line satisfying `p`, if any. -/
def firstMatchIdx (p : String → Bool) : List String → Option Nat
  | [] => none
  | l :: ls => if p l then some 0 else (firstMatchIdx p ls).map (· + 1)

/-- updateMarkdownFile of the CircleView (rename): find the anchor
line, replace it wholesale by marker ++ newTitle, join the lines back.
none models the silent no-write path when no line matches. -/
def updateMarkdownFile (node : Node) (newTitle : String) (content : String) : Option String :=
  let lines := splitNewlines content
  match firstMatchIdx (isAnchorLine node) lines with
  | none => none
  | some i => some (joinLines (lines.set i (headerMark node.level ++ newTitle)))

/-- The caller-visible state after saveEditChanges: the document text
and the in-memory titles of the edit-start node and selected section. -/
structure EditOutcome where
  doc : String
  nodeTitle : String
  sectionTitle : String
deriving Repr

/-- saveEditChanges of the CircleView: trim the input; empty or
unchanged input is a silent no-op; otherwise call the patcher and then
unconditionally update the in-memory node and section titles (the code
does not inspect whether the patcher found its anchor line). -/
def saveEditChanges (node : Node) (sectionTitle : String) (rawInput : String)
    (content : String) : EditOutcome :=
  let newTitle := jsTrim rawInput
  if newTitle = "" ∨ newTitle = node.title then ⟨content, node.title, sectionTitle⟩
  else
    match updateMarkdownFile node newTitle content with
    | some newDoc => ⟨newDoc, newTitle, newTitle⟩
    | none => ⟨content, newTitle, newTitle⟩

/-- The two creation modes of createNewHeader. -/
inductive InsertMode where
  | child
  | sibling
deriving Repr, DecidableEq

/-- The leading hash run counted by the sibling scan's while loop. -/
def hashRun (line : String) : Nat :=
  (line.data.takeWhile (· = '#')).length

/-- The sibling scan's boundary test: the line starts with a hash and
its hash run is at most `lvl`. -/
def isBoundary (lvl : Nat) (line : String) : Bool :=
  jsStartsWith line "#" && hashRun line ≤ lvl

/-- The insert position of a sibling: the first boundary line after the
anchor line `i`, or end of document when none follows. -/
def siblingPos (lvl : Nat) (lines : List String) (i : Nat) : Nat :=
  match firstMatchIdx (isBoundary lvl) (lines.drop (i + 1)) with
  | none => lines.length
  | some k => i + 1 + k

/-- Array.prototype.splice(pos, 0, x): insert before index `pos`,
appending at the end when `pos` is beyond the last index. -/
def insertAt (pos : Nat) (x : String) : List String → List String
  | [] => [x]
  | l :: ls =>
    match pos with
    | 0 => x :: l :: ls
    | pos' + 1 => l :: insertAt pos' x ls

/-- insertNewHeader of the CircleView: locate the reference node's
line; a child goes right after it, a sibling goes at the subtree
boundary; the new line is marker ++ title.  none models the thrown
error when the reference line is not found (no write happens). -/
def insertNewHeader (level : Nat) (title : String) (relativeTo : Node)
    (mode : InsertMode) (content : String) : Option String :=
  let lines := splitNewlines content
  match firstMatchIdx (isAnchorLine relativeTo) lines with
  | none => none
  | some i =>
    let pos := match mode with
      | .child => i + 1
      | .sibling => siblingPos relativeTo.level lines i
    some (joinLines (insertAt pos (headerMark level ++ title) lines))

lemma firstMatchIdx_eq_none_iff (p : String → Bool) :
    ∀ ls : List String, firstMatchIdx p ls = none ↔ ∀ l ∈ ls, p l = false := by
  intro ls
  induction ls with
  | nil => simp [firstMatchIdx]
  | cons l ls ih =>
    constructor
    · intro h x hx
      by_cases hl : p l = true
      · simp [firstMatchIdx, hl] at h
      · simp only [firstMatchIdx, hl, if_false, Bool.false_eq_true] at h
        rcases List.mem_cons.mp hx with h1 | h2
        · subst h1; simpa using hl
        · exact (ih.mp (by simpa using h)) x h2
    · intro h
      have hl : p l = false := h l (List.mem_cons_self l ls)
      have ht : firstMatchIdx p ls = none :=
        ih.mpr (fun x hx => h x (List.mem_cons_of_mem l hx))
      simp [firstMatchIdx, hl, ht]

lemma firstMatchIdx_some_spec (p : String → Bool) :
    ∀ (ls : List String) (i : Nat), firstMatchIdx p ls = some i →
    i < ls.length ∧ p (ls.getD i "") = true ∧ ∀ j, j < i → p (ls.getD j "") = false := by
  intro ls
  induction ls with
  | nil => intro i h; simp [firstMatchIdx] at h
  | cons l ls ih =>
    intro i h
    by_cases hl : p l = true
    · simp only [firstMatchIdx, hl, if_true, Option.some.injEq] at h
      subst h
      exact ⟨by simp, by simpa using hl, fun j hj => absurd hj (Nat.not_lt_zero j)⟩
    · simp only [firstMatchIdx, hl, if_false, Bool.false_eq_true, Option.map_eq_some'] at h
      rcases h with ⟨i', hi', rfl⟩
      obtain ⟨h1, h2, h3⟩ := ih i' hi'
      refine ⟨by simpa using h1, by simpa using h2, ?_⟩
      intro j hj
      cases j with
      | zero => simpa using hl
      | succ j' => simpa using h3 j' (by omega)

lemma getD_set_self : ∀ (ls : List String) (i : Nat) (x : String), i < ls.length →
    (ls.set i x).getD i "" = x := by
  intro ls
  induction ls with
  | nil => intro i x h; simp at h
  | cons l ls ih =>
    intro i x h
    cases i with
    | zero => rfl
    | succ i' => simpa using ih i' x (by simpa using h)

lemma getD_set_other : ∀ (ls : List String) (i j : Nat) (x : String), j ≠ i →
    (ls.set i x).getD j "" = ls.getD j "" := by
  intro ls
  induction ls with
  | nil => intro i j x _; rfl
  | cons l ls ih =>
    intro i j x h
    cases i with
    | zero =>
      cases j with
      | zero => exact absurd rfl h
      | succ j' => rfl
    | succ i' =>
      cases j with
      | zero => rfl
      | succ j' => simpa using ih i' j' x (by omega)

/--
Claim C2: for every document text containing exactly one line matching
the anchor node's (level, title) — the patcher's match: marker plus
remainder trimming to the title — rename rewrites only that line,
replacing it with marker ++ newTitle (the hash marker preserved), and
leaves every other line unchanged; in particular renaming Intro
(level 2) to Overview in the four-line example document produces
exactly the expected document.
-/
theorem c2_rename_rewrites_one_line :
    (∀ (node : Node) (newTitle content : String) (i : Nat),
      (splitNewlines content).countP (isAnchorLine node) = 1 →
      firstMatchIdx (isAnchorLine node) (splitNewlines content) = some i →
      isAnchorLine node ((splitNewlines content).getD i "") = true ∧
      updateMarkdownFile node newTitle content =
        some (joinLines ((splitNewlines content).set i (headerMark node.level ++ newTitle))) ∧
      ((splitNewlines content).set i (headerMark node.level ++ newTitle)).getD i "" =
        headerMark node.level ++ newTitle ∧
      (∀ j, j ≠ i →
        ((splitNewlines content).set i (headerMark node.level ++ newTitle)).getD j "" =
          (splitNewlines content).getD j "")) ∧
    updateMarkdownFile ⟨2, "Intro", []⟩ "Overview" "# Title\n## Intro\nbody\n## Next\n" =
      some "# Title\n## Overview\nbody\n## Next\n" := by
  constructor
  · intro node newTitle content i _hcount hfmi
    obtain ⟨hlen, hmatch, _⟩ := firstMatchIdx_some_spec _ _ _ hfmi
    refine ⟨hmatch, ?_, getD_set_self _ _ _ hlen, fun j hj => getD_set_other _ _ _ _ hj⟩
    simp only [updateMarkdownFile]
    rw [hfmi]
  · rfl

/-- Witness for C2 at the spec's concrete rename scenario. -/
theorem c2_rename_rewrites_one_line_witness :
    updateMarkdownFile ⟨2, "Intro", []⟩ "Overview" "# Title\n## Intro\nbody\n## Next\n" =
      some (joinLines ((splitNewlines "# Title\n## Intro\nbody\n## Next\n").set 1
        (headerMark 2 ++ "Overview"))) :=
  (c2_rename_rewrites_one_line.1 ⟨2, "Intro", []⟩ "Overview"
    "# Title\n## Intro\nbody\n## Next\n" 1 rfl rfl).2.1

/--
Claim C5 counterexample: on a document with no matching line the rename
performs no write (none) and leaves the text untouched, but the failure
is NOT surfaced to the caller: saveEditChanges follows its success path
and still updates the in-memory node and section titles to the new
title, so the caller cannot observe the failed (no-op) operation.
-/
theorem c5_failure_not_surfaced_counterexample :
    updateMarkdownFile ⟨2, "Intro", []⟩ "Overview" "# Title\nbody" = none ∧
    saveEditChanges ⟨2, "Intro", []⟩ "Intro" "Overview" "# Title\nbody" =
      ⟨"# Title\nbody", "Overview", "Overview"⟩ ∧
    ("Overview" : String) ≠ "Intro" :=
  ⟨rfl, rfl, by decide⟩

/--
Claim C5 amended: for every document with no line matching the anchor
node's (level, title), the rename performs no document write and leaves
the original text untouched, but the failure is silent — the patcher
returns normally and the caller proceeds as on success, setting the
in-memory node and section titles to the trimmed new title.
-/
theorem c5_rename_missing_is_silent_noop :
    ∀ (node : Node) (sectionTitle rawInput content : String),
    (∀ line ∈ splitNewlines content, isAnchorLine node line = false) →
    updateMarkdownFile node (jsTrim rawInput) content = none ∧
    (saveEditChanges node sectionTitle rawInput content).doc = content ∧
    (jsTrim rawInput ≠ "" → jsTrim rawInput ≠ node.title →
      saveEditChanges node sectionTitle rawInput content =
        ⟨content, jsTrim rawInput, jsTrim rawInput⟩) := by
  intro node st raw content hno
  have hfmi : firstMatchIdx (isAnchorLine node) (splitNewlines content) = none :=
    (firstMatchIdx_eq_none_iff _ _).mpr hno
  have hupd : updateMarkdownFile node (jsTrim raw) content = none := by
    simp only [updateMarkdownFile]
    rw [hfmi]
  refine ⟨hupd, ?_, ?_⟩
  · simp only [saveEditChanges]
    split_ifs with hc
    · rfl
    · rw [hupd]
  · intro h1 h2
    simp only [saveEditChanges]
    rw [if_neg (by tauto), hupd]

/-- Witness for C5 amended at a concrete document without the anchor. -/
theorem c5_rename_missing_is_silent_noop_witness :
    updateMarkdownFile ⟨2, "Intro", []⟩ (jsTrim "Overview") "## Other\nbody" = none :=
  (c5_rename_missing_is_silent_noop ⟨2, "Intro", []⟩ "Intro" "Overview" "## Other\nbody"
    (by decide)).1

lemma insertAt_length : ∀ (ls : List String) (pos : Nat) (x : String),
    (insertAt pos x ls).length = ls.length + 1 := by
  intro ls
  induction ls with
  | nil => intro pos x; simp [insertAt]
  | cons l ls ih =>
    intro pos x
    cases pos with
    | zero => rfl
    | succ p' => simp [insertAt, ih]

lemma insertAt_spec : ∀ (ls : List String) (pos : Nat) (x : String), pos ≤ ls.length →
    insertAt pos x ls = ls.take pos ++ x :: ls.drop pos := by
  intro ls
  induction ls with
  | nil =>
    intro pos x h
    simp only [List.length_nil, Nat.le_zero] at h
    subst h
    rfl
  | cons l ls ih =>
    intro pos x h
    cases pos with
    | zero => rfl
    | succ p' =>
      simp only [insertAt, List.take_succ_cons, List.drop_succ_cons, List.cons_append,
        List.cons.injEq, true_and]
      exact ih p' x (by simpa using h)

lemma getD_drop : ∀ (ls : List String) (n k : Nat),
    (ls.drop n).getD k "" = ls.getD (n + k) "" := by
  intro ls
  induction ls with
  | nil => intro n k; simp
  | cons l ls ih =>
    intro n k
    cases n with
    | zero => simp
    | succ n' =>
      rw [Nat.succ_add]
      exact ih n' k

lemma getD_mem : ∀ (ls : List String) (j : Nat), j < ls.length → ls.getD j "" ∈ ls := by
  intro ls
  induction ls with
  | nil => intro j h; simp at h
  | cons l ls ih =>
    intro j h
    cases j with
    | zero => simp
    | succ j' => exact List.mem_cons_of_mem l (ih j' (by simpa using h))

lemma siblingPos_bounds (lvl : Nat) (lines : List String) (i : Nat) (h : i < lines.length) :
    i + 1 ≤ siblingPos lvl lines i ∧ siblingPos lvl lines i ≤ lines.length := by
  cases hfmi : firstMatchIdx (isBoundary lvl) (lines.drop (i + 1)) with
  | none =>
    have hsp : siblingPos lvl lines i = lines.length := by unfold siblingPos; rw [hfmi]
    rw [hsp]
    exact ⟨h, le_rfl⟩
  | some k =>
    have hsp : siblingPos lvl lines i = i + 1 + k := by unfold siblingPos; rw [hfmi]
    obtain ⟨hk, _, _⟩ := firstMatchIdx_some_spec _ _ _ hfmi
    rw [List.length_drop] at hk
    rw [hsp]
    exact ⟨by omega, by omega⟩

lemma siblingPos_boundary (lvl : Nat) (lines : List String) (i : Nat) :
    (∀ j, i + 1 ≤ j → j < siblingPos lvl lines i →
      isBoundary lvl (lines.getD j "") = false) ∧
    (siblingPos lvl lines i = lines.length ∨
      (siblingPos lvl lines i < lines.length ∧
        isBoundary lvl (lines.getD (siblingPos lvl lines i) "") = true)) := by
  cases hfmi : firstMatchIdx (isBoundary lvl) (lines.drop (i + 1)) with
  | none =>
    have hsp : siblingPos lvl lines i = lines.length := by unfold siblingPos; rw [hfmi]
    rw [hsp]
    refine ⟨?_, Or.inl rfl⟩
    intro j hj1 hj2
    have hall := (firstMatchIdx_eq_none_iff _ _).mp hfmi
    have hrw : lines.getD j "" = (lines.drop (i + 1)).getD (j - (i + 1)) "" := by
      rw [getD_drop]
      congr 1
      omega
    rw [hrw]
    refine hall _ (getD_mem _ _ ?_)
    rw [List.length_drop]
    omega
  | some k =>
    have hsp : siblingPos lvl lines i = i + 1 + k := by unfold siblingPos; rw [hfmi]
    rw [hsp]
    obtain ⟨hk, hpk, hjk⟩ := firstMatchIdx_some_spec _ _ _ hfmi
    rw [List.length_drop] at hk
    constructor
    · intro j hj1 hj2
      have hlt : j - (i + 1) < k := by omega
      have := hjk _ hlt
      rw [getD_drop, show i + 1 + (j - (i + 1)) = j by omega] at this
      exact this
    · right
      refine ⟨by omega, ?_⟩
      rw [getD_drop] at hpk
      exact hpk

/--
Claim C3 counterexample: the node B (level 2) IS parsed from the
document with a tab-separated header marker, yet inserting a sibling of
B fails (throws, modelled none) because the patcher's lookup only
recognises marker-plus-single-space lines — no line is inserted, while
the claim promises an insertion for every parsed node.
-/
theorem c3_insert_sibling_counterexample :
    parseHeaders "##\tB\n# C" = some [⟨2, "B", []⟩, ⟨1, "C", []⟩] ∧
    insertNewHeader 2 "X" ⟨2, "B", []⟩ InsertMode.sibling "##\tB\n# C" = none :=
  ⟨rfl, rfl⟩

/--
Claim C3 amended: for every document and node whose header line the
marker-plus-space lookup finds (first line starting with the node's
marker whose remainder trims to its title), inserting a sibling inserts
exactly one new line — the node's own marker followed by the new title —
at the position of the first subsequent line whose leading hash run is
at most node.level, or at end of document when none follows; in
particular the sibling of B in the spec's boundary example lands
immediately before the hash-C line.
-/
theorem c3_insert_sibling_boundary :
    (∀ (node : Node) (newTitle content : String) (i : Nat),
      firstMatchIdx (isAnchorLine node) (splitNewlines content) = some i →
      insertNewHeader node.level newTitle node InsertMode.sibling content =
        some (joinLines (insertAt (siblingPos node.level (splitNewlines content) i)
          (headerMark node.level ++ newTitle) (splitNewlines content))) ∧
      (insertAt (siblingPos node.level (splitNewlines content) i)
        (headerMark node.level ++ newTitle) (splitNewlines content)).length =
        (splitNewlines content).length + 1 ∧
      insertAt (siblingPos node.level (splitNewlines content) i)
          (headerMark node.level ++ newTitle) (splitNewlines content) =
        (splitNewlines content).take (siblingPos node.level (splitNewlines content) i) ++
          (headerMark node.level ++ newTitle) ::
          (splitNewlines content).drop (siblingPos node.level (splitNewlines content) i) ∧
      i + 1 ≤ siblingPos node.level (splitNewlines content) i ∧
      (∀ j, i + 1 ≤ j → j < siblingPos node.level (splitNewlines content) i →
        isBoundary node.level ((splitNewlines content).getD j "") = false) ∧
      (siblingPos node.level (splitNewlines content) i = (splitNewlines content).length ∨
        (siblingPos node.level (splitNewlines content) i < (splitNewlines content).length ∧
          isBoundary node.level
            ((splitNewlines content).getD
              (siblingPos node.level (splitNewlines content) i) "") = true))) ∧
    insertNewHeader 2 "X" ⟨2, "B", []⟩ InsertMode.sibling "# A\n## B\ntext\n# C\n" =
      some "# A\n## B\ntext\n## X\n# C\n" := by
  constructor
  · intro node newTitle content i hfmi
    obtain ⟨hlen, _, _⟩ := firstMatchIdx_some_spec _ _ _ hfmi
    obtain ⟨hlow, hhigh⟩ := siblingPos_bounds node.level (splitNewlines content) i hlen
    obtain ⟨hnotyet, hat⟩ := siblingPos_boundary node.level (splitNewlines content) i
    refine ⟨?_, insertAt_length _ _ _, insertAt_spec _ _ _ hhigh, hlow, hnotyet, hat⟩
    simp only [insertNewHeader]
    rw [hfmi]
  · rfl

/-- Witness for C3 amended at the spec's boundary example. -/
theorem c3_insert_sibling_boundary_witness :
    insertNewHeader 2 "X" ⟨2, "B", []⟩ InsertMode.sibling "# A\n## B\ntext\n# C\n" =
      some (joinLines (insertAt (siblingPos 2 (splitNewlines "# A\n## B\ntext\n# C\n") 1)
        (headerMark 2 ++ "X") (splitNewlines "# A\n## B\ntext\n# C\n"))) :=
  (c3_insert_sibling_boundary.1 ⟨2, "B", []⟩ "X" "# A\n## B\ntext\n# C\n" 1 rfl).1

/--
The amended specification of header recognition, following the amended
claim's words: a line matches exactly when it has 1-6 leading hashes,
then at least one whitespace character, then at least one further
character; the title is the remainder after the longest whitespace run
when that remainder is non-empty, otherwise the line's final whitespace
character; the title must contain no line terminator.  The title is
untrimmed: trailing whitespace is preserved.
-/
def specMatchAmended (line : String) : Option Node :=
  let cs := line.data
  let k := (cs.takeWhile (· = '#')).length
  let rest := cs.drop k
  if 1 ≤ k ∧ k ≤ 6 ∧ 2 ≤ rest.length ∧ isJsWhitespace (rest.headD 'x') then
    let ws := rest.dropWhile isJsWhitespace
    let title := if ws.isEmpty then (rest.getLast?.elim [] fun c => [c]) else ws
    if title.all (fun c => !(isLineTerm c)) then some ⟨k, ⟨title⟩, []⟩ else none
  else none

lemma dropWhile_eq_drop_length {α : Type} (p : α → Bool) :
    ∀ l : List α, l.dropWhile p = l.drop (l.takeWhile p).length := by
  intro l
  induction l with
  | nil => rfl
  | cons a t ih =>
    by_cases hp : p a = true
    · simp [List.dropWhile_cons, List.takeWhile_cons, hp, ih]
    · simp [List.dropWhile_cons, List.takeWhile_cons, hp]

lemma drop_pred_eq_getLast {α : Type} :
    ∀ l : List α, l ≠ [] → l.drop (l.length - 1) = (l.getLast?.elim [] fun c => [c]) := by
  intro l
  induction l with
  | nil => intro h; exact absurd rfl h
  | cons a t ih =>
    intro _
    cases t with
    | nil => rfl
    | cons b t' =>
      have h1 : (a :: b :: t').length - 1 = (b :: t').length := by simp
      rw [h1]
      have h2 : (a :: b :: t').drop (b :: t').length = (b :: t').drop ((b :: t').length - 1) := by
        simp [List.length_cons, List.drop_succ_cons]
      rw [h2, ih (by simp), List.getLast?_cons_cons]

/--
Claim C7 counterexample: the line hash-space-a-space is parsed as a
header whose title keeps its trailing space, while the claim's trimmed
remainder is just the letter: the parsed title is not the trimmed
remainder.
-/
theorem c7_title_not_trimmed_counterexample :
    matchHeader "# a " = some ⟨1, "a ", []⟩ ∧
    jsTrim "a " = "a" ∧ ("a " : String) ≠ "a" :=
  ⟨rfl, rfl, by decide⟩

/--
Claim C7 amended: a line is parsed as a header exactly when it starts
with 1-6 hash characters followed by at least one whitespace character
and at least one further character, with no line terminator in the
captured title; the level is the hash count and the title is the
remainder after the longest whitespace run, untrimmed (the final
whitespace character when the whole remainder is whitespace).
-/
theorem c7_header_recognition_amended :
    ∀ line : String, matchHeader line = specMatchAmended line := by
  intro line
  simp only [matchHeader, specMatchAmended]
  generalize line.data = cs
  generalize (cs.takeWhile fun x => x = '#').length = k
  generalize cs.drop k = rest
  by_cases h16 : 1 ≤ k ∧ k ≤ 6
  · rw [if_pos h16]
    by_cases hwl : (rest.takeWhile isJsWhitespace).length = 0
    · rw [if_pos hwl]
      cases rest with
      | nil => rw [if_neg (by simp)]
      | cons c rest' =>
        have hc : isJsWhitespace c = false := by
          by_cases hcc : isJsWhitespace c = true
          · rw [List.takeWhile_cons, if_pos hcc] at hwl
            simp at hwl
          · simpa using hcc
        rw [if_neg (by simp [hc])]
    · rw [if_neg hwl]
      have hne : rest ≠ [] := by
        intro h
        subst h
        simp at hwl
      have hhead : isJsWhitespace (rest.headD 'x') = true := by
        cases rest with
        | nil => exact absurd rfl hne
        | cons c rest' =>
          by_cases hcc : isJsWhitespace c = true
          · simpa using hcc
          · rw [List.takeWhile_cons, if_neg hcc] at hwl
            simp at hwl
      by_cases hlen2 : 2 ≤ rest.length
      · have hcond : 1 ≤ k ∧ k ≤ 6 ∧ 2 ≤ rest.length ∧
            isJsWhitespace (rest.headD 'x') = true := ⟨h16.1, h16.2, hlen2, hhead⟩
        rw [if_pos hcond]
        by_cases heq : (rest.takeWhile isJsWhitespace).length = rest.length
        · rw [if_pos heq, if_neg (by omega : ¬ rest.length - 1 = 0)]
          have htail : rest.dropWhile isJsWhitespace = [] := by
            rw [dropWhile_eq_drop_length, heq, List.drop_length]
          rw [htail, drop_pred_eq_getLast rest hne]
          simp
        · rw [if_neg heq, if_neg hwl]
          have htail : rest.dropWhile isJsWhitespace =
              rest.drop (rest.takeWhile isJsWhitespace).length :=
            dropWhile_eq_drop_length _ _
          have hε : (rest.dropWhile isJsWhitespace).isEmpty = false := by
            rw [htail]
            have hle := lengthTakeWhileLe isJsWhitespace rest
            have : rest.drop (rest.takeWhile isJsWhitespace).length ≠ [] := by
              intro hdrop
              have := List.drop_eq_nil_iff.mp hdrop
              omega
            simpa [List.isEmpty_iff] using this
          rw [htail] at hε ⊢
          simp only [hε, Bool.false_eq_true, if_false]
      · have hle := lengthTakeWhileLe isJsWhitespace rest
        have hwleq : (rest.takeWhile isJsWhitespace).length = rest.length := by omega
        rw [if_pos hwleq, if_pos (by omega : rest.length - 1 = 0),
          if_neg (show ¬(1 ≤ k ∧ k ≤ 6 ∧ 2 ≤ rest.length ∧
            isJsWhitespace (rest.headD 'x') = true) by tauto)]
  · rw [if_neg h16, if_neg (by tauto)]

/-- A rendered section hitbox of drawHeaderCircles: angular span,
radial band, title and centre, with the numbers modelled as exact
rationals. -/
structure Section where
  startAngle : ℚ
  endAngle : ℚ
  innerRadius : ℚ
  outerRadius : ℚ
  title : String
  centerX : ℚ
  centerY : ℚ
deriving Repr, DecidableEq

mutual

/-- findMaxDepth of the CircleView: 1 on a leaf, otherwise one more
than the largest child depth. -/
def findMaxDepth (node : Node) : Nat :=
  match h : node.children with
  | [] => 1
  | c :: cs => maxChildDepth (c :: cs) + 1
termination_by sizeOf node
decreasing_by
  rw [← h]
  cases node with
  | mk lvl ttl chs => simp only [Node.mk.sizeOf_spec]; omega

/-- The fold over children of findMaxDepth (the JavaScript loop folds
from the left starting at 0; max is associative and commutative, so the
right fold below computes the same maximum). -/
def maxChildDepth : List Node → Nat
  | [] => 0
  | c :: cs => Nat.max (findMaxDepth c) (maxChildDepth cs)
termination_by l => sizeOf l

end

mutual

/-- The hitbox generation of drawHeaderCircles: a node with children
divides its span [a0, a1) into equal parts, one per child, in document
order.  The code computes child i's start as a0 + per * i; the
accumulating recursion below adds per once per child, which is the same
exact rational. -/
def sectionsOf (node : Node) (cX cY radiusStep : ℚ) (depth : Nat) (a0 a1 : ℚ) :
    List Section :=
  match h : node.children with
  | [] => []
  | c :: cs =>
    sectionsFor (c :: cs) cX cY radiusStep depth a0 ((a1 - a0) / ((c :: cs).length : ℚ))
termination_by sizeOf node
decreasing_by
  rw [← h]
  cases node with
  | mk lvl ttl chs => simp only [Node.mk.sizeOf_spec]; omega

/-- One loop iteration per child: push the child's hitbox (ring band
from the code's depth-dependent inner radius to radiusStep * (depth+1)),
recurse into the child's subtree, then continue one span further. -/
def sectionsFor (cs : List Node) (cX cY radiusStep : ℚ) (depth : Nat) (start per : ℚ) :
    List Section :=
  match cs with
  | [] => []
  | c :: rest =>
    { startAngle := start, endAngle := start + per,
      innerRadius := if depth = 0 then radiusStep * (1/2) else radiusStep * (depth : ℚ),
      outerRadius := radiusStep * ((depth : ℚ) + 1),
      title := c.title, centerX := cX, centerY := cY } ::
    (sectionsOf c cX cY radiusStep (depth + 1) start (start + per) ++
     sectionsFor rest cX cY radiusStep depth (start + per) per)
termination_by sizeOf cs

end

/-- usable radius of drawCircleVisualization in unnamed part_001 (the
shipped CircleView.ts uses the same min with padding 0.90). -/
def maxRadiusMin (w h : ℚ) : ℚ := min w h / 2 * (95/100)

/-- usable radius of drawCircleVisualization in unnamed part_000, which
takes Math.max of the dimensions instead of Math.min. -/
def maxRadiusMax (w h : ℚ) : ℚ := max w h / 2 * (95/100)

/-- radiusStep of part_001: divide by maxDepth when it exceeds 1. -/
def radiusStepP001 (w h : ℚ) (root : Node) : ℚ :=
  if 1 < findMaxDepth root then maxRadiusMin w h / (findMaxDepth root : ℚ)
  else maxRadiusMin w h

/-- radiusStep of part_000: identical shape, max-based radius. -/
def radiusStepP000 (w h : ℚ) (root : Node) : ℚ :=
  if 1 < findMaxDepth root then maxRadiusMax w h / (findMaxDepth root : ℚ)
  else maxRadiusMax w h

lemma findMaxDepth_chain :
    findMaxDepth ⟨0, "R", [⟨1, "A", [⟨2, "B", []⟩]⟩]⟩ = 3 := by
  simp [findMaxDepth, maxChildDepth]

lemma findMaxDepth_leaf : findMaxDepth ⟨0, "R", []⟩ = 1 := by
  simp [findMaxDepth]

/--
Claim C8: the claim says the usable radius is min(width, height)/2
times a 0.90-0.95 padding factor and radiusStep divides it by maxDepth
(degenerating to the full radius at maxDepth 1).  part_001 and
CircleView.ts do exactly that, but part_000 computes Math.max of the
dimensions: on a 400 x 200 canvas its usable radius is 190, which
exceeds min(400,200)/2 = 100 entirely, so the rings overflow the short
canvas dimension — the code slip the claim's wording (and the other two
revisions) contradict.
-/
theorem c8_radius_step_uses_max :
    radiusStepP001 400 200 ⟨0, "R", [⟨1, "A", [⟨2, "B", []⟩]⟩]⟩ = 95 / 3 ∧
    radiusStepP001 400 200 ⟨0, "R", []⟩ = 95 ∧
    radiusStepP001 400 200 ⟨0, "R", []⟩ = min 400 200 / 2 * (95/100) ∧
    radiusStepP000 400 200 ⟨0, "R", [⟨1, "A", [⟨2, "B", []⟩]⟩]⟩ = 190 / 3 ∧
    radiusStepP000 400 200 ⟨0, "R", []⟩ = 190 ∧
    ¬ ((190 : ℚ) ≤ min (400 : ℚ) 200 / 2) := by
  refine ⟨?_, ?_, ?_, ?_, ?_, ?_⟩ <;>
    norm_num [radiusStepP001, radiusStepP000, maxRadiusMin, maxRadiusMax,
      findMaxDepth_chain, findMaxDepth_leaf]

lemma sectionsFor_mem :
    ∀ (cs : List Node) (cX cY step : ℚ) (depth : Nat) (start per : ℚ) (i : Nat)
      (h : i < cs.length),
    ({ startAngle := start + per * (i : ℚ), endAngle := start + per * (i : ℚ) + per,
       innerRadius := if depth = 0 then step * (1/2) else step * (depth : ℚ),
       outerRadius := step * ((depth : ℚ) + 1),
       title := (cs.get ⟨i, h⟩).title, centerX := cX, centerY := cY } : Section) ∈
      sectionsFor cs cX cY step depth start per := by
  intro cs
  induction cs with
  | nil => intro _ _ _ _ _ _ i h; simp at h
  | cons c rest ih =>
    intro cX cY step depth start per i h
    cases i with
    | zero =>
      rw [sectionsFor]
      refine List.mem_cons.mpr (Or.inl ?_)
      have h0 : start + per * ((0 : ℕ) : ℚ) = start := by norm_num
      rw [h0]
      rfl
    | succ i' =>
      rw [sectionsFor]
      refine List.mem_cons.mpr (Or.inr (List.mem_append_right _ ?_))
      have harith : start + per * ((i' + 1 : ℕ) : ℚ) = (start + per) + per * ((i' : ℕ) : ℚ) := by
        push_cast
        ring
      rw [harith]
      exact ih cX cY step depth (start + per) per i' (by simpa using h)

/--
Claim C4: for every node with at least one child occupying angular span
[a0, a1), the layout assigns the children, in document order, spans of
equal width per = (a1 - a0)/k that are contiguous, non-overlapping and
cover exactly [a0, a1); each child's section, with the code's radial
band, is in the emitted section list.  Instantiating a0 = 0 and a1 with
the full circle gives the root partition of [0, 2 pi) (the irrational
constant 2 pi is abstracted by the rational parameter a1).
-/
theorem c4_angular_partition :
    ∀ (node : Node) (cX cY step : ℚ) (depth : Nat) (a0 a1 per : ℚ),
    node.children ≠ [] →
    per = (a1 - a0) / (node.children.length : ℚ) →
    (∀ (i : Nat) (h : i < node.children.length),
      ({ startAngle := a0 + per * (i : ℚ), endAngle := a0 + per * (i : ℚ) + per,
         innerRadius := if depth = 0 then step * (1/2) else step * (depth : ℚ),
         outerRadius := step * ((depth : ℚ) + 1),
         title := (node.children.get ⟨i, h⟩).title,
         centerX := cX, centerY := cY } : Section) ∈
        sectionsOf node cX cY step depth a0 a1) ∧
    (∀ i : Nat, (a0 + per * (i : ℚ)) + per = a0 + per * ((i + 1 : ℕ) : ℚ)) ∧
    a0 + per * ((0 : ℕ) : ℚ) = a0 ∧
    a0 + per * (node.children.length : ℚ) = a1 ∧
    (a0 ≤ a1 → ∀ i j : Nat, i < j → (a0 + per * (i : ℚ)) + per ≤ a0 + per * (j : ℚ)) := by
  intro node cX cY step depth a0 a1 per hne hper
  have hlen : 1 ≤ node.children.length := by
    cases hc : node.children with
    | nil => exact absurd hc hne
    | cons c cs => simp
  refine ⟨?_, ?_, by norm_num, ?_, ?_⟩
  · intro i h
    obtain ⟨lvl, ttl, children⟩ := node
    cases children with
    | nil => exact absurd rfl hne
    | cons c cs =>
      have heval : sectionsOf ⟨lvl, ttl, c :: cs⟩ cX cY step depth a0 a1 =
          sectionsFor (c :: cs) cX cY step depth a0 ((a1 - a0) / ((c :: cs).length : ℚ)) := by
        rw [sectionsOf]
      rw [heval, hper]
      exact sectionsFor_mem (c :: cs) cX cY step depth a0 _ i h
  · intro i
    push_cast
    ring
  · rw [hper]
    have : ((node.children.length : ℚ)) ≠ 0 := by
      have := hlen
      positivity
    field_simp
  · intro hle i j hij
    have hper0 : 0 ≤ per := by
      rw [hper]
      apply div_nonneg (by linarith)
      positivity
    have h1 : (a0 + per * (i : ℚ)) + per = a0 + per * ((i : ℚ) + 1) := by ring
    rw [h1]
    have h2 : ((i : ℚ) + 1) ≤ (j : ℚ) := by
      have : (i + 1 : ℕ) ≤ j := hij
      exact_mod_cast this
    nlinarith

/-- Witness for C4: a two-child root over the span [0, 12): the first
child's section spans [0, 6) with ring band [1, 2), and the child spans
cover the parent span exactly. -/
theorem c4_angular_partition_witness :
    ({ startAngle := 0, endAngle := 6, innerRadius := 1, outerRadius := 2,
        title := "a", centerX := 0, centerY := 0 } : Section) ∈
      sectionsOf ⟨0, "r", [⟨1, "a", []⟩, ⟨1, "b", []⟩]⟩ 0 0 2 0 0 12 := by
  have h := c4_angular_partition ⟨0, "r", [⟨1, "a", []⟩, ⟨1, "b", []⟩]⟩ 0 0 2 0 0 12 6
    (by simp) (by norm_num)
  have hm := h.1 0 (by norm_num)
  norm_num at hm
  exact hm

/-- midpoint angle of a section, as the navigation code computes it. -/
def midAngle (s : Section) : ℚ := (s.startAngle + s.endAngle) / 2

/-- The child-candidate filter of navigateVertically (downwards):
innerRadius within 1 of the selection's outerRadius, startAngle at
least the selection's, endAngle strictly below the selection's. -/
def descendCandidates (hitboxes : List Section) (sel : Section) : List Section :=
  hitboxes.filter fun s =>
    decide (|s.innerRadius - sel.outerRadius| < 1) &&
    decide (sel.startAngle ≤ s.startAngle) &&
    decide (s.endAngle < sel.endAngle)

/-- The best-child loop of navigateVertically, running over the whole
candidate list with the given seed best and seed difference. -/
def bestChildLoop (mid : ℚ) : List Section → Section → ℚ → Section
  | [], best, _ => best
  | c :: cs, best, bestDiff =>
    if |midAngle c - mid| < bestDiff then bestChildLoop mid cs c (|midAngle c - mid|)
    else bestChildLoop mid cs best bestDiff

/-- The descend direction of navigateVertically: no candidate selects
nothing; otherwise the loop is seeded with the first candidate and the
code's initial difference Math.abs(b.start + b.end) / 2 - mid — the
absolute value wraps only the sum, so the seed can be negative. -/
def navigateDescend (hitboxes : List Section) (sel : Section) : Option Section :=
  match descendCandidates hitboxes sel with
  | [] => none
  | b :: rest =>
    some (bestChildLoop (midAngle sel) (b :: rest) b
      (|b.startAngle + b.endAngle| / 2 - midAngle sel))

/-- The failing frame for claim C6: a selection spanning [0, 4). -/
def selEx : Section := ⟨0, 4, 10, 20, "sel", 0, 0⟩

/-- A first child far from the selection's midpoint 2. -/
def childFar : Section := ⟨0, 1, 20, 30, "far", 0, 0⟩

/-- A second child whose midpoint 3 is strictly closer to 2. -/
def childNear : Section := ⟨5/2, 7/2, 20, 30, "near", 0, 0⟩

/--
Claim C6 (code bug): the descend command is supposed, per the inline
comment and the claim, to pick the candidate whose midpoint angle is
closest to the selection's midpoint; but the seed difference
Math.abs(bestChild.startAngle + bestChild.endAngle) / 2 - currentMid
misplaces the absolute value, here giving the negative seed
1/2 - 2 = -3/2 that no true distance can beat, so the first candidate
childFar (distance 3/2) is returned although childNear (distance 1)
is strictly closer.
-/
theorem c6_descend_picks_far_child :
    navigateDescend [childFar, childNear] selEx = some childFar ∧
    |midAngle childNear - midAngle selEx| < |midAngle childFar - midAngle selEx| ∧
    childNear ≠ childFar := by
  have hnear : |midAngle childNear - midAngle selEx| = 1 := by
    have h1 : midAngle childNear - midAngle selEx = 1 := by
      norm_num [midAngle, childNear, selEx]
    rw [h1, abs_one]
  have hfar : |midAngle childFar - midAngle selEx| = 3/2 := by
    have h1 : midAngle childFar - midAngle selEx = -(3/2) := by
      norm_num [midAngle, childFar, selEx]
    rw [h1, abs_neg, abs_of_nonneg (by norm_num : (0 : ℚ) ≤ 3/2)]
  have hseed : |childFar.startAngle + childFar.endAngle| / 2 - midAngle selEx = -(3/2) := by
    norm_num [midAngle, childFar, selEx]
  have hcand : descendCandidates [childFar, childNear] selEx = [childFar, childNear] := by
    norm_num [descendCandidates, childFar, childNear, selEx]
  have hnotlt : ∀ q : ℚ, ¬ |q| < -(3/2) := by
    intro q hq
    have := abs_nonneg q
    linarith
  have hloop : bestChildLoop (midAngle selEx) [childFar, childNear] childFar (-(3/2)) =
      childFar := by
    rw [bestChildLoop, if_neg (hnotlt _), bestChildLoop, if_neg (hnotlt _), bestChildLoop]
  refine ⟨?_, ?_, ?_⟩
  · simp only [navigateDescend, hcand]
    rw [hseed, hloop]
  · rw [hnear, hfar]
    norm_num
  · intro h
    have := congrArg Section.startAngle h
    simp [childNear, childFar] at this

mutual

/-- findNodeBySection of the CircleView: the node itself when its TITLE
matches (the level is never consulted), otherwise the first match found
among the children, recursively. -/
def findNodeBySection (node : Node) (title : String) : Option Node :=
  if node.title = title then some node
  else findInChildren node.children title
termination_by sizeOf node
decreasing_by
  cases node with
  | mk lvl ttl chs => simp only [Node.mk.sizeOf_spec]; omega

/-- The for loop over the children with early return. -/
def findInChildren : List Node → String → Option Node
  | [], _ => none
  | c :: cs, title =>
    match findNodeBySection c title with
    | some found => some found
    | none => findInChildren cs title
termination_by l _ => sizeOf l

end

mutual

/-- Pre-order traversal — node before its children, children in
document order — the specification-side order for the amended claim. -/
def preOrder (n : Node) : List Node :=
  n :: preOrderList n.children
termination_by sizeOf n
decreasing_by
  cases n with
  | mk lvl ttl chs => simp only [Node.mk.sizeOf_spec]; omega

/-- Pre-order traversal of a forest. -/
def preOrderList : List Node → List Node
  | [] => []
  | c :: cs => preOrder c ++ preOrderList cs
termination_by l => sizeOf l

end

lemma find?_append_match {α : Type} (p : α → Bool) :
    ∀ (l₁ l₂ : List α),
    (l₁ ++ l₂).find? p =
      (match l₁.find? p with
       | some x => some x
       | none => l₂.find? p) := by
  intro l₁
  induction l₁ with
  | nil => intro l₂; simp
  | cons a t ih =>
    intro l₂
    by_cases hp : p a = true
    · simp [List.find?_cons, hp]
    · simp only [List.cons_append, List.find?_cons, hp, Bool.false_eq_true, if_false]
      simp only [Bool.not_eq_true] at hp
      simp [hp, ih]

/--
Claim C9 counterexample: the tree contains both a level-2 node titled X
(inside A) and a level-1 node titled X; resolving a selection titled X
returns the level-2 node — the pre-order first title match — even when
the selection is the level-1 section, because findNodeBySection keys on
the exact title text alone and never consults the level.
-/
theorem c9_resolution_ignores_level :
    findNodeBySection ⟨0, "R", [⟨1, "A", [⟨2, "X", []⟩]⟩, ⟨1, "X", []⟩]⟩ "X" =
      some ⟨2, "X", []⟩ ∧
    (⟨1, "X", []⟩ : Node) ∈ preOrder ⟨0, "R", [⟨1, "A", [⟨2, "X", []⟩]⟩, ⟨1, "X", []⟩]⟩ ∧
    (⟨2, "X", []⟩ : Node).level ≠ 1 := by
  refine ⟨?_, ?_, by decide⟩
  · simp [findNodeBySection, findInChildren]
  · simp [preOrder, preOrderList]

/--
Claim C9 amended: the selection is resolved to its anchor node by exact
title text alone — the node's level is not part of the key (sections do
not even record levels) — and among nodes sharing the title the first
match in pre-order (a node before its children, children in document
order, the synthetic root included) wins.
-/
theorem c9_resolve_first_preorder_title_match :
    ∀ (n : Node) (title : String),
      findNodeBySection n title = (preOrder n).find? (fun x => x.title == title) := by
  have main : ∀ N : Nat,
      (∀ n : Node, sizeOf n ≤ N → ∀ title : String,
        findNodeBySection n title = (preOrder n).find? (fun x => x.title == title)) ∧
      (∀ l : List Node, sizeOf l ≤ N → ∀ title : String,
        findInChildren l title = (preOrderList l).find? (fun x => x.title == title)) := by
    intro N
    induction N with
    | zero =>
      constructor
      · intro n hn
        exfalso
        cases n with
        | mk lvl ttl chs => simp only [Node.mk.sizeOf_spec] at hn; omega
      · intro l hl
        exfalso
        cases l with
        | nil => simp at hl
        | cons c cs =>
          rw [List.cons.sizeOf_spec] at hl
          omega
    | succ N ih =>
      constructor
      · intro n hn title
        rw [findNodeBySection, preOrder]
        by_cases ht : n.title = title
        · rw [if_pos ht]
          rw [List.find?_cons]
          simp [ht]
        · rw [if_neg ht]
          rw [List.find?_cons]
          have hb : (n.title == title) = false := by simp [ht]
          simp only [hb]
          refine ih.2 n.children ?_ title
          cases n with
          | mk lvl ttl chs =>
            simp only [Node.mk.sizeOf_spec] at hn
            show sizeOf chs ≤ N
            omega
      · intro l hl title
        cases l with
        | nil => rw [findInChildren, preOrderList]; rfl
        | cons c cs =>
          have hc : sizeOf c ≤ N := by simp at hl; omega
          have hcs : sizeOf cs ≤ N := by simp at hl; omega
          rw [findInChildren, preOrderList, find?_append_match,
            ← ih.1 c hc title, ← ih.2 cs hcs title]
          cases hfc : findNodeBySection c title <;> rfl
  intro n title
  exact (main (sizeOf n)).1 n le_rfl title

end CirclePlugin
